import Mathlib

/-!
Verification of go-mkdelegation (storacha/go-mkdelegation).

Shallow embedding of the repository's delegation core:
Go strings and byte slices are modelled as `List Nat` of byte values
(a Go string IS a byte sequence); machine integers as `Int`/`Nat`;
fallible code returns `Option`/`Except`.

The embedding covers:
- `MakeDelegation` (src/pkg/delegation/delegation.go)
- `FormatDelegation` / `FormatDelegationBytes` (src/pkg/delegation/delegation_test.go,
  lines 306-338: the multibase-base64 CIDv1 with identity multihash and CAR codec)
- `ParseDelegationContent` and `parseDelegationToDelegationInfo`
  (src/pkg/delegation/delegation.go)
- the expiration handling of `mkDelegation` (src/cmd/gen.go lines 110-118)
- `validateCapability` (src/cmd/gen.go lines 156-164)

External collaborators (go-ucanto's `delegation.Delegate`, `delegation.Parse`,
`Delegation.Archive`, the multiformats libraries, and `encoding/base64`) are
modelled concretely from the spec's description of their contracts; each such
definition carries a doc comment saying so.
-/

/-- A Go string / byte slice: a list of byte values (each `< 256` when well formed). -/
abbrev Str := List Nat

/-- Byte-level whitespace predicate: ASCII space and the control whitespace
range, matching what `strings.TrimSpace` trims on ASCII input. -/
def isSpaceB (b : Nat) : Bool := b == 32 || (9 ≤ b && b ≤ 13)

/-- Model of Go `strings.TrimSpace`: drop whitespace bytes from both ends. -/
def trimSpace (s : Str) : Str :=
  ((s.dropWhile isSpaceB).reverse.dropWhile isSpaceB).reverse

/-- Convert a Lean string literal to its byte list (ASCII inputs only are used). -/
def strBytes (s : String) : Str := s.toList.map Char.toNat

/-! ## Unsigned varints (LEB128), as used by the multiformats CID layout -/

/-- Unsigned LEB128 varint encoding (little-endian base-128 groups,
high bit marks continuation), the integer encoding of the multiformats stack. -/
def varint (n : Nat) : List Nat :=
  if h : n < 128 then [n] else (n % 128 + 128) :: varint (n / 128)
decreasing_by exact Nat.div_lt_self (by omega) (by omega)

/-- Read one varint from the front of a byte list, returning the value and rest. -/
def readVarint : List Nat → Option (Nat × List Nat)
  | [] => none
  | b :: rest =>
    if b < 128 then some (b, rest)
    else
      match readVarint rest with
      | none => none
      | some (m, r) => some (b - 128 + 128 * m, r)

theorem readVarint_varint (n : Nat) (rest : List Nat) :
    readVarint (varint n ++ rest) = some (n, rest) := by
  induction n using varint.induct with
  | case1 n h =>
    rw [varint, dif_pos h]
    simp [readVarint, h]
  | case2 n h ih =>
    rw [varint, dif_neg h]
    simp only [List.cons_append, List.append_eq, readVarint]
    rw [if_neg (by omega), ih]
    have : n % 128 + 128 - 128 + 128 * (n / 128) = n := by omega
    simp [this]
    omega

theorem varint_lt (n : Nat) : ∀ b ∈ varint n, b < 256 := by
  induction n using varint.induct with
  | case1 n h =>
    rw [varint, dif_pos h]; intro b hb; simp at hb; omega
  | case2 n h ih =>
    rw [varint, dif_neg h]
    intro b hb
    rcases List.mem_cons.mp hb with rfl | hb
    · omega
    · exact ih b hb

/-! ## Base64 (RFC 4648 alphabet), modelling go-multibase base64 (unpadded)
and Go `encoding/base64` StdEncoding (padded) -/

/-- The base64 alphabet: sextet value to ASCII byte. -/
def b64Char (n : Nat) : Nat :=
  if n < 26 then 65 + n
  else if n < 52 then 71 + n
  else if n < 62 then n - 4
  else if n = 62 then 43
  else 47

/-- Inverse of the base64 alphabet: ASCII byte to sextet value. -/
def b64Index (b : Nat) : Option Nat :=
  if 65 ≤ b ∧ b ≤ 90 then some (b - 65)
  else if 97 ≤ b ∧ b ≤ 122 then some (b - 71)
  else if 48 ≤ b ∧ b ≤ 57 then some (b + 4)
  else if b = 43 then some 62
  else if b = 47 then some 63
  else none

theorem b64Index_b64Char (n : Nat) (h : n < 64) : b64Index (b64Char n) = some n := by
  revert h; revert n; decide

theorem b64Char_ge (n : Nat) : 43 ≤ b64Char n := by
  unfold b64Char
  split <;> try omega
  split <;> try omega
  split <;> try omega
  split <;> omega

/-- Regroup bytes (base 256) into sextets (base 64), three bytes to four
sextets; tails of one or two bytes yield two or three sextets. -/
def toSextets : List Nat → List Nat
  | [] => []
  | [a] => [a / 4, a % 4 * 16]
  | [a, b] => [a / 4, a % 4 * 16 + b / 16, b % 16 * 4]
  | a :: b :: c :: rest =>
    (a / 4) :: (a % 4 * 16 + b / 16) :: (b % 16 * 4 + c / 64) :: (c % 64) :: toSextets rest

/-- Regroup sextets back into bytes; a single trailing sextet is malformed. -/
def fromSextets : List Nat → Option (List Nat)
  | [] => some []
  | [_] => none
  | [w, x] => some [w * 4 + x / 16]
  | [w, x, y] => some [w * 4 + x / 16, x % 16 * 16 + y / 4]
  | w :: x :: y :: z :: rest =>
    match fromSextets rest with
    | none => none
    | some l => some ((w * 4 + x / 16) :: (x % 16 * 16 + y / 4) :: (y % 4 * 64 + z) :: l)

theorem fromSextets_toSextets (bs : List Nat) (h : ∀ b ∈ bs, b < 256) :
    fromSextets (toSextets bs) = some bs := by
  induction bs using toSextets.induct with
  | case1 => simp [toSextets, fromSextets]
  | case2 a =>
    have ha : a < 256 := h a (by simp)
    simp only [toSextets, fromSextets]
    have : a / 4 * 4 + a % 4 * 16 / 16 = a := by omega
    simp [this]
    omega
  | case3 a b =>
    have ha : a < 256 := h a (by simp)
    have hb : b < 256 := h b (by simp)
    simp only [toSextets, fromSextets]
    have h1 : a / 4 * 4 + (a % 4 * 16 + b / 16) / 16 = a := by omega
    have h2 : (a % 4 * 16 + b / 16) % 16 * 16 + b % 16 * 4 / 4 = b := by omega
    simp [h1, h2]
    omega
  | case4 a b c rest ih =>
    have ha : a < 256 := h a (by simp)
    have hb : b < 256 := h b (by simp)
    have hc : c < 256 := h c (by simp)
    have hrest : ∀ x ∈ rest, x < 256 := by
      intro x hx; exact h x (by simp [hx])
    simp only [toSextets]
    have hr := ih hrest
    have h1 : a / 4 * 4 + (a % 4 * 16 + b / 16) / 16 = a := by omega
    have h2 : (a % 4 * 16 + b / 16) % 16 * 16 + (b % 16 * 4 + c / 64) / 4 = b := by omega
    have h3 : (b % 16 * 4 + c / 64) % 4 * 64 + c % 64 = c := by omega
    cases hts : toSextets rest with
    | nil =>
      simp only [fromSextets]
      rw [hts] at hr
      simp only [fromSextets] at hr
      simp only [hr, h1, h2, h3]
      simp at hr
      simp [hr]
    | cons s ss =>
      simp only [fromSextets]
      rw [hts] at hr
      simp [hr, h1, h2, h3]

theorem toSextets_lt (bs : List Nat) (h : ∀ b ∈ bs, b < 256) :
    ∀ s ∈ toSextets bs, s < 64 := by
  induction bs using toSextets.induct with
  | case1 => simp [toSextets]
  | case2 a =>
    have ha : a < 256 := h a (by simp)
    intro s hs
    simp [toSextets] at hs
    rcases hs with rfl | rfl <;> omega
  | case3 a b =>
    have ha : a < 256 := h a (by simp)
    have hb : b < 256 := h b (by simp)
    intro s hs
    simp [toSextets] at hs
    rcases hs with rfl | rfl | rfl <;> omega
  | case4 a b c rest ih =>
    have ha : a < 256 := h a (by simp)
    have hb : b < 256 := h b (by simp)
    have hc : c < 256 := h c (by simp)
    intro s hs
    simp only [toSextets, List.mem_cons] at hs
    rcases hs with rfl | rfl | rfl | rfl | hs
    · omega
    · omega
    · omega
    · omega
    · exact ih (fun x hx => h x (by simp [hx])) s hs

/-- Map bytes through the inverse alphabet, failing on any non-alphabet byte. -/
def b64IndexList : List Nat → Option (List Nat)
  | [] => some []
  | b :: rest =>
    match b64Index b with
    | none => none
    | some s =>
      match b64IndexList rest with
      | none => none
      | some l => some (s :: l)

theorem b64IndexList_map (l : List Nat) (h : ∀ s ∈ l, s < 64) :
    b64IndexList (l.map b64Char) = some l := by
  induction l with
  | nil => rfl
  | cons s rest ih =>
    simp only [List.map_cons, b64IndexList]
    rw [b64Index_b64Char s (h s (by simp)), ih (fun x hx => h x (by simp [hx]))]

/-- Unpadded base64 encoding over bytes, modelling the go-multibase base64
('m') encoder used by `cid.StringOfBase(multibase.Base64)`. -/
def base64EncodeNoPad (bs : List Nat) : Str := (toSextets bs).map b64Char

/-- Unpadded base64 decoding, modelling go-multibase base64 decoding. -/
def base64DecodeNoPad (s : Str) : Option (List Nat) :=
  match b64IndexList s with
  | none => none
  | some sx => fromSextets sx

theorem base64_round_trip (bs : List Nat) (h : ∀ b ∈ bs, b < 256) :
    base64DecodeNoPad (base64EncodeNoPad bs) = some bs := by
  unfold base64EncodeNoPad base64DecodeNoPad
  rw [b64IndexList_map _ (toSextets_lt bs h)]
  exact fromSextets_toSextets bs h

/-- Modelled from the spec: Go `base64.StdEncoding.DecodeString` (external
standard library) — padded standard base64: total length a multiple of four,
at most two trailing padding bytes, body in the standard alphabet. -/
def base64DecodeStd (s : Str) : Option (List Nat) :=
  if s.length % 4 = 0 then
    let pad := (s.reverse.takeWhile (fun b => b == 61)).length
    if pad ≤ 2 then base64DecodeNoPad (s.take (s.length - pad)) else none
  else none

/-! ## Data model

`Delegation` mirrors the go-ucanto `delegation.Delegation` view used by the
repository (the getters called in `parseDelegationToDelegationInfo`):
issuer/audience DID strings, version, capabilities, optional expiration,
notBefore, nonce, facts (opaque payloads), proofs, signature bytes.

A proof entry models one element of `deleg.Proofs()` (a content link) together
with the outcome of looking its block up in the delegation's own block store
(`deleg.Blocks()` via `blockstore.NewBlockReader` + `delegation.NewProofsView`):
`(cid, some child)` is a link whose block is present and decodes to `child`;
`(cid, none)` is a link whose block is absent or undecodable. -/

/-- A capability: ability (`can`) and resource (`with`), caveats empty. -/
structure Capability where
  can : Str
  with_ : Str
  deriving DecidableEq, Repr

/-- A delegation as viewed through the go-ucanto getters used by the repo. -/
inductive Delegation : Type where
  | mk (issuer audience version : Str) (capabilities : List Capability)
      (expiration : Option Int) (notBefore : Int) (nonce : Str)
      (facts : List Str) (proofs : List (Nat × Option Delegation))
      (signature : Str)

def Delegation.issuer : Delegation → Str
  | .mk iss _ _ _ _ _ _ _ _ _ => iss

def Delegation.audience : Delegation → Str
  | .mk _ aud _ _ _ _ _ _ _ _ => aud

def Delegation.version : Delegation → Str
  | .mk _ _ ver _ _ _ _ _ _ _ => ver

def Delegation.capabilities : Delegation → List Capability
  | .mk _ _ _ caps _ _ _ _ _ _ => caps

def Delegation.expiration : Delegation → Option Int
  | .mk _ _ _ _ exp _ _ _ _ _ => exp

def Delegation.notBefore : Delegation → Int
  | .mk _ _ _ _ _ nb _ _ _ _ => nb

def Delegation.nonce : Delegation → Str
  | .mk _ _ _ _ _ _ non _ _ _ => non

def Delegation.facts : Delegation → List Str
  | .mk _ _ _ _ _ _ _ facts _ _ => facts

def Delegation.proofs : Delegation → List (Nat × Option Delegation)
  | .mk _ _ _ _ _ _ _ _ proofs _ => proofs

def Delegation.signature : Delegation → Str
  | .mk _ _ _ _ _ _ _ _ _ sig => sig

/-- CapabilityInfo of src/pkg/delegation/delegation.go: `{With, Can}`. -/
structure CapabilityInfo where
  with_ : Str
  can : Str
  deriving DecidableEq, Repr

/-- DelegationInfo of src/pkg/delegation/delegation.go: the display-only
recursive view, with `proofDelegations` holding the resolved children. -/
inductive DelegationInfo : Type where
  | mk (issuer audience version : Str) (expiration : Option Int) (notBefore : Int)
      (nonce : Str) (proofs : List Nat) (proofDelegations : List DelegationInfo)
      (signature : Str) (capabilities : List CapabilityInfo) (facts : List Str)

def DelegationInfo.issuer : DelegationInfo → Str
  | .mk iss _ _ _ _ _ _ _ _ _ _ => iss

def DelegationInfo.audience : DelegationInfo → Str
  | .mk _ aud _ _ _ _ _ _ _ _ _ => aud

def DelegationInfo.version : DelegationInfo → Str
  | .mk _ _ ver _ _ _ _ _ _ _ _ => ver

def DelegationInfo.expiration : DelegationInfo → Option Int
  | .mk _ _ _ exp _ _ _ _ _ _ _ => exp

def DelegationInfo.notBefore : DelegationInfo → Int
  | .mk _ _ _ _ nb _ _ _ _ _ _ => nb

def DelegationInfo.nonce : DelegationInfo → Str
  | .mk _ _ _ _ _ non _ _ _ _ _ => non

def DelegationInfo.proofs : DelegationInfo → List Nat
  | .mk _ _ _ _ _ _ prfs _ _ _ _ => prfs

def DelegationInfo.proofDelegations : DelegationInfo → List DelegationInfo
  | .mk _ _ _ _ _ _ _ pds _ _ _ => pds

def DelegationInfo.signature : DelegationInfo → Str
  | .mk _ _ _ _ _ _ _ _ sig _ _ => sig

def DelegationInfo.capabilities : DelegationInfo → List CapabilityInfo
  | .mk _ _ _ _ _ _ _ _ _ caps _ => caps

def DelegationInfo.facts : DelegationInfo → List Str
  | .mk _ _ _ _ _ _ _ _ _ _ facts => facts

/-! ## Block / archive codec

Modelled from the spec: the external block codec and archive (CAR) codec of
go-ucanto (`EncodeBlock`/`DecodeBlock`, `Delegation.Archive`,
`delegation.Extract`) are not part of this repository. Per spec section 4.3,
`Encode` serializes the delegation's own block and includes the blocks of
proofs that are locally available, omitting links whose blocks are not held;
decoding reconstructs the root delegation together with its retained blocks.
The concrete byte layout below is a faithful executable stand-in: every field
is length-prefixed with a varint, and each proof entry carries its link
followed by its block when available. -/

/-- Length-prefixed byte-string encoding. -/
def encStr (s : Str) : List Nat := varint s.length ++ s

/-- Decode a length-prefixed byte string from the front of the input. -/
def decStr (bs : List Nat) : Option (Str × List Nat) :=
  match readVarint bs with
  | none => none
  | some (n, r) => if n ≤ r.length then some (r.take n, r.drop n) else none

theorem decStr_encStr (s : Str) (rest : List Nat) :
    decStr (encStr s ++ rest) = some (s, rest) := by
  unfold encStr decStr
  rw [List.append_assoc, readVarint_varint]
  simp [List.take_left, List.drop_left]

/-- Sign-byte plus magnitude-varint integer encoding. -/
def encInt (i : Int) : List Nat :=
  if i < 0 then 1 :: varint (-i).toNat else 0 :: varint i.toNat

/-- Decode a sign-byte-plus-magnitude integer. -/
def decInt (bs : List Nat) : Option (Int × List Nat) :=
  match bs with
  | 0 :: r =>
    match readVarint r with
    | none => none
    | some (n, r') => some ((n : Int), r')
  | 1 :: r =>
    match readVarint r with
    | none => none
    | some (n, r') => some (-(n : Int), r')
  | _ => none

theorem decInt_encInt (i : Int) (rest : List Nat) :
    decInt (encInt i ++ rest) = some (i, rest) := by
  unfold encInt decInt
  by_cases h : i < 0
  · rw [if_pos h]
    simp only [List.cons_append, readVarint_varint]
    congr 2
    omega
  · rw [if_neg h]
    simp only [List.cons_append, readVarint_varint]
    congr 2
    omega

/-- Optional-integer encoding: absence tag or presence tag plus integer. -/
def encOptInt : Option Int → List Nat
  | none => [0]
  | some i => 1 :: encInt i

/-- Decode an optional integer. -/
def decOptInt (bs : List Nat) : Option (Option Int × List Nat) :=
  match bs with
  | 0 :: r => some (none, r)
  | 1 :: r =>
    match decInt r with
    | none => none
    | some (i, r') => some (some i, r')
  | _ => none

theorem decOptInt_encOptInt (o : Option Int) (rest : List Nat) :
    decOptInt (encOptInt o ++ rest) = some (o, rest) := by
  cases o with
  | none => rfl
  | some i =>
    simp only [encOptInt, List.cons_append, decOptInt, decInt_encInt]

/-- Capability block encoding: ability then resource. -/
def encCap (c : Capability) : List Nat := encStr c.can ++ encStr c.with_

/-- Decode a capability. -/
def decCap (bs : List Nat) : Option (Capability × List Nat) :=
  match decStr bs with
  | none => none
  | some (can, r) =>
    match decStr r with
    | none => none
    | some (w, r') => some (⟨can, w⟩, r')

theorem decCap_encCap (c : Capability) (rest : List Nat) :
    decCap (encCap c ++ rest) = some (c, rest) := by
  unfold encCap decCap
  rw [List.append_assoc]
  simp [decStr_encStr]

/-- Concatenate the encodings of a list's elements. -/
def encSeq (enc : α → List Nat) : List α → List Nat
  | [] => []
  | a :: r => enc a ++ encSeq enc r

/-- Count-prefixed list encoding. -/
def encList (enc : α → List Nat) (l : List α) : List Nat :=
  varint l.length ++ encSeq enc l

/-- Decode exactly `n` elements with the given element decoder. -/
def decN (dec : List Nat → Option (α × List Nat)) : Nat → List Nat → Option (List α × List Nat)
  | 0, bs => some ([], bs)
  | n + 1, bs =>
    match dec bs with
    | none => none
    | some (a, r) =>
      match decN dec n r with
      | none => none
      | some (l, r') => some (a :: l, r')

/-- Decode a count-prefixed list. -/
def decList (dec : List Nat → Option (α × List Nat)) (bs : List Nat) :
    Option (List α × List Nat) :=
  match readVarint bs with
  | none => none
  | some (n, r) => decN dec n r

theorem decN_encSeq (dec : List Nat → Option (α × List Nat)) (enc : α → List Nat)
    (l : List α) (rest : List Nat)
    (h : ∀ a ∈ l, ∀ r, dec (enc a ++ r) = some (a, r)) :
    decN dec l.length (encSeq enc l ++ rest) = some (l, rest) := by
  induction l with
  | nil => rfl
  | cons a r ih =>
    simp only [encSeq, List.length_cons, decN, List.append_assoc]
    simp [h a (by simp), ih (fun x hx r' => h x (by simp [hx]) r')]

theorem decList_encList (dec : List Nat → Option (α × List Nat)) (enc : α → List Nat)
    (l : List α) (rest : List Nat)
    (h : ∀ a ∈ l, ∀ r, dec (enc a ++ r) = some (a, r)) :
    decList dec (encList enc l ++ rest) = some (l, rest) := by
  unfold encList decList
  rw [List.append_assoc, readVarint_varint]
  exact decN_encSeq dec enc l rest h

mutual
/-- Modelled from the spec: the archive encoding of a delegation — its own
block (every field in declaration order) with each proof entry carrying its
link and, when the proof's block is locally available, the block itself
(spec section 4.3, `Encode`). -/
def encD : Delegation → List Nat
  | .mk iss aud ver caps exp nb non facts proofs sig =>
    encStr iss ++ encStr aud ++ encStr ver ++ encList encCap caps ++
      encOptInt exp ++ encInt nb ++ encStr non ++ encList encStr facts ++
      varint proofs.length ++ encProofSeq proofs ++ encStr sig

/-- Encode the proof entries of a delegation block in order. -/
def encProofSeq : List (Nat × Option Delegation) → List Nat
  | [] => []
  | (c, none) :: r => varint c ++ 0 :: encProofSeq r
  | (c, some d) :: r => varint c ++ 1 :: (encD d ++ encProofSeq r)
end

mutual
/-- Modelled from the spec: decoding of the archive encoding produced by
`encD`, reconstructing the root delegation and its retained proof blocks.
The fuel argument bounds the nesting of proof blocks inside the byte input
(any fuel larger than the input length suffices). -/
def decD : Nat → List Nat → Option (Delegation × List Nat)
  | 0, _ => none
  | fuel + 1, bs =>
    match decStr bs with
    | none => none
    | some (iss, r1) =>
      match decStr r1 with
      | none => none
      | some (aud, r2) =>
        match decStr r2 with
        | none => none
        | some (ver, r3) =>
          match decList decCap r3 with
          | none => none
          | some (caps, r4) =>
            match decOptInt r4 with
            | none => none
            | some (exp, r5) =>
              match decInt r5 with
              | none => none
              | some (nb, r6) =>
                match decStr r6 with
                | none => none
                | some (non, r7) =>
                  match decList decStr r7 with
                  | none => none
                  | some (facts, r8) =>
                    match readVarint r8 with
                    | none => none
                    | some (pn, r9) =>
                      match decProofN fuel pn r9 with
                      | none => none
                      | some (proofs, r10) =>
                        match decStr r10 with
                        | none => none
                        | some (sig, r11) =>
                          some (.mk iss aud ver caps exp nb non facts proofs sig, r11)
termination_by fuel _ => (fuel, 0)

/-- Decode exactly `n` proof entries, recursing into available proof blocks. -/
def decProofN : Nat → Nat → List Nat → Option (List (Nat × Option Delegation) × List Nat)
  | _, 0, bs => some ([], bs)
  | fuel, n + 1, bs =>
    match readVarint bs with
    | none => none
    | some (c, r1) =>
      match r1 with
      | 0 :: r2 =>
        match decProofN fuel n r2 with
        | none => none
        | some (l, r) => some ((c, none) :: l, r)
      | 1 :: r2 =>
        match decD fuel r2 with
        | none => none
        | some (d, r3) =>
          match decProofN fuel n r3 with
          | none => none
          | some (l, r) => some ((c, some d) :: l, r)
      | _ => none
termination_by fuel n _ => (fuel, n + 1)
end

/-! ## Builder: MakeDelegation (src/pkg/delegation/delegation.go lines 14-30) -/

/-- Modelled from the spec: the external `ucan.Signer` collaborator —
`DID().String()` is its stable principal identifier and `sign` the external
signing primitive over canonical bytes (spec section 6). -/
structure Signer where
  did : Str
  sign : List Nat → Str

/-- The go-ucanto delegation options used by this repository:
`delegation.WithExpiration` and `delegation.WithNoExpiration`. -/
inductive DelegationOption where
  | withExpiration (e : Int)
  | withNoExpiration
  deriving DecidableEq, Repr

/-- The UCAN version string reported by go-ucanto delegations.
Modelled from the spec: an external constant of the ucan library. -/
def ucanVersion : Str := strBytes "0.9.1"

/-- Configuration accumulated by applying delegation options in order. -/
def applyOption (_prev : Option Int) : DelegationOption → Option Int
  | .withExpiration e => some e
  | .withNoExpiration => none

/-- Modelled from the spec: the external `delegation.Delegate` of go-ucanto —
constructs the immutable signed delegation from issuer, audience and
capability set, applying the options in order; absent expiration means
unbounded validity; notBefore defaults to 0, nonce and facts to empty,
proofs to none; the signature is the signer's output over the canonical
encoding of all fields except the signature (spec sections 4.1 and 6). -/
def Delegate (issuer : Signer) (audience : Str) (uc : List Capability)
    (opts : List DelegationOption) : Delegation :=
  let exp := opts.foldl applyOption none
  let unsigned :=
    encStr issuer.did ++ encStr audience ++ encStr ucanVersion ++
      encList encCap uc ++ encOptInt exp ++ encInt 0 ++ encStr [] ++
      encList encStr [] ++ varint 0
  .mk issuer.did audience ucanVersion uc exp 0 [] [] [] (issuer.sign unsigned)

/-- MakeDelegation from src/pkg/delegation/delegation.go: builds one
capability per ability string, each with the issuer's DID as resource, and
delegates to the external `delegation.Delegate`. No validation is performed
here. -/
def MakeDelegation (issuer : Signer) (audience : Str) (capabilities : List Str)
    (opts : List DelegationOption) : Except Str Delegation :=
  let uc := capabilities.map (fun capability => Capability.mk capability issuer.did)
  Except.ok (Delegate issuer audience uc opts)

/-! ## ArchiveCodec: FormatDelegation and delegation parsing -/

/-- Modelled from the spec: `d.Archive()` of go-ucanto — the self-contained
archive bytes of a delegation (its block DAG); represented by the recursive
block encoding `encD`. -/
def Archive (d : Delegation) : List Nat := encD d

/-- multihash.Sum(data, IDENTITY, -1): identity multihash — code 0x00, length
varint, then the digest, which IS the payload bytes (external go-multihash,
layout fixed by the multiformats specification). -/
def multihashSumIdentity (data : List Nat) : List Nat :=
  varint 0 ++ varint data.length ++ data

/-- cid.NewCidV1(codec, mh): version-1 CID binary layout — version varint,
codec varint, multihash (external go-cid, layout fixed by the CID spec). -/
def cidV1 (codec : Nat) (mh : List Nat) : List Nat :=
  varint 1 ++ varint codec ++ mh

/-- The multicodec code for Content Addressable aRchives (CAR): 0x0202. -/
def carCodec : Nat := 514

/-- FormatDelegationBytes from src/pkg/delegation/delegation_test.go lines
317-338: identity multihash of the archive, wrapped as a CIDv1 with the CAR
codec, rendered in multibase base64 (prefix byte 'm' = 109, unpadded). -/
def FormatDelegationBytes (archive : List Nat) : Str :=
  109 :: base64EncodeNoPad (cidV1 carCodec (multihashSumIdentity archive))

/-- FormatDelegation from src/pkg/delegation/delegation_test.go lines 306-315:
reads the delegation archive (a reader, modelled as the bytes it yields) and
formats it. -/
def FormatDelegation (archiveBytes : List Nat) : Str :=
  FormatDelegationBytes archiveBytes

/-- Modelled from the spec: the external `delegation.Parse` of go-ucanto —
decodes the text as a base64-multibase ContentID, requires the identity hash
function and the archive (CAR) payload codec, and reconstructs the root
delegation from the digest bytes, which are the archive itself
(spec sections 3 and 4.3). -/
def delegationParse (text : Str) : Option Delegation :=
  match text with
  | [] => none
  | b :: rest =>
    if b = 109 then
    match base64DecodeNoPad rest with
    | none => none
    | some bs =>
      match readVarint bs with
      | none => none
      | some (v, r1) =>
        if v = 1 then
          match readVarint r1 with
          | none => none
          | some (codec, r2) =>
            if codec = carCodec then
              match readVarint r2 with
              | none => none
              | some (hcode, r3) =>
                if hcode = 0 then
                  match readVarint r3 with
                  | none => none
                  | some (dlen, r4) =>
                    if r4.length = dlen then
                      match decD (r4.length + 1) r4 with
                      | some (d, []) => some d
                      | _ => none
                    else none
                else none
            else none
        else none
    else none

/-! ## Resolver: parseDelegationToDelegationInfo
(src/pkg/delegation/delegation.go lines 54-99) -/

mutual
/-- parseDelegationToDelegationInfo from src/pkg/delegation/delegation.go:
copies the flat fields, the capability and fact lists, and recursively
resolves the proofs whose blocks are present, skipping (`continue`) the
proofs whose block lookup fails. -/
def parseDelegationToDelegationInfo : Delegation → DelegationInfo
  | .mk iss aud ver caps exp nb non facts proofs sig =>
    .mk iss aud ver exp nb non (proofs.map Prod.fst)
      (resolveProofList proofs) sig
      (caps.map (fun c => CapabilityInfo.mk c.with_ c.can)) facts

/-- The proof loop of parseDelegationToDelegationInfo: for each proof in
order, append the recursively resolved child when its block is available,
and silently skip it otherwise. -/
def resolveProofList : List (Nat × Option Delegation) → List DelegationInfo
  | [] => []
  | (_, none) :: rest => resolveProofList rest
  | (_, some d) :: rest => parseDelegationToDelegationInfo d :: resolveProofList rest
end

/-- ParseDelegationContent from src/pkg/delegation/delegation.go lines
102-125: trim whitespace, try `delegation.Parse` directly, on failure try a
standard base64 decode and parse the decoded bytes once, and fail if that
also fails. -/
def ParseDelegationContent (content : Str) : Option DelegationInfo :=
  let content := trimSpace content
  match delegationParse content with
  | some deleg => some (parseDelegationToDelegationInfo deleg)
  | none =>
    match base64DecodeStd content with
    | none => none
    | some decoded =>
      match delegationParse decoded with
      | none => none
      | some deleg => some (parseDelegationToDelegationInfo deleg)

/-! ## CLI pieces (src/cmd/gen.go) -/

/-- validateCapability from src/cmd/gen.go lines 156-164: scan the whole
capability list and collect every entry not in the known-capability set
(the Go code accumulates one wrapped error per unknown capability via
multierror and returns nil when none; the collected capability names model
that error list). The known set is a parameter here because the Go code
reads the package-level `KnownCapabilities` map, whose entries are ability
constants of the external go-libstoracha library. -/
def validateCapability (known : Str → Bool) (capabilities : List Str) : List Str :=
  capabilities.foldl (fun errs capability =>
    if !known capability then errs ++ [capability] else errs) []

/-- The result of the expiration handling in mkDelegation. -/
inductive ExpirationOutcome where
  | errInPast (e : Int)
  | ok (opts : List DelegationOption)
  deriving DecidableEq, Repr

/-- The expiration handling of mkDelegation, src/cmd/gen.go lines 110-118:
a positive expiration flag is rejected when `time.Now().Unix() > expiration`
and otherwise passed as `WithExpiration`; a non-positive flag yields
`WithNoExpiration`. `now` models `time.Now().Unix()`. -/
def mkDelegationExpiration (now expiration : Int) : ExpirationOutcome :=
  if expiration > 0 then
    if now > expiration then .errInPast expiration
    else .ok [.withExpiration expiration]
  else .ok [.withNoExpiration]

/-! ## Round-trip lemmas for the archive pipeline -/

theorem encStr_lt (s : Str) (h : ∀ b ∈ s, b < 256) : ∀ b ∈ encStr s, b < 256 := by
  intro b hb
  rcases List.mem_append.mp hb with hv | hs
  · exact varint_lt _ b hv
  · exact h b hs

theorem encInt_lt (i : Int) : ∀ b ∈ encInt i, b < 256 := by
  intro b hb
  unfold encInt at hb
  split at hb <;> rcases List.mem_cons.mp hb with rfl | hv
  · omega
  · exact varint_lt _ b hv
  · omega
  · exact varint_lt _ b hv

theorem encOptInt_lt (o : Option Int) : ∀ b ∈ encOptInt o, b < 256 := by
  intro b hb
  cases o with
  | none => simp [encOptInt] at hb; omega
  | some i =>
    simp only [encOptInt, List.mem_cons] at hb
    rcases hb with rfl | hb
    · omega
    · exact encInt_lt i b hb

theorem encSeq_lt (enc : α → List Nat) (l : List α)
    (h : ∀ a ∈ l, ∀ b ∈ enc a, b < 256) : ∀ b ∈ encSeq enc l, b < 256 := by
  induction l with
  | nil => simp [encSeq]
  | cons a r ih =>
    intro b hb
    rcases List.mem_append.mp hb with ha | hr
    · exact h a (by simp) b ha
    · exact ih (fun x hx => h x (by simp [hx])) b hr

theorem encList_lt (enc : α → List Nat) (l : List α)
    (h : ∀ a ∈ l, ∀ b ∈ enc a, b < 256) : ∀ b ∈ encList enc l, b < 256 := by
  intro b hb
  rcases List.mem_append.mp hb with hv | hs
  · exact varint_lt _ b hv
  · exact encSeq_lt enc l h b hs

theorem encCap_lt (c : Capability) (hcan : ∀ b ∈ c.can, b < 256)
    (hw : ∀ b ∈ c.with_, b < 256) : ∀ b ∈ encCap c, b < 256 := by
  intro b hb
  rcases List.mem_append.mp hb with h1 | h2
  · exact encStr_lt _ hcan b h1
  · exact encStr_lt _ hw b h2

/-- Byte bound for the archive encoding of a proof-free delegation whose
string fields are all well-formed byte sequences. -/
theorem encD_nil_lt (iss aud ver : Str) (caps : List Capability)
    (exp : Option Int) (nb : Int) (non : Str) (facts : List Str) (sig : Str)
    (hiss : ∀ b ∈ iss, b < 256) (haud : ∀ b ∈ aud, b < 256)
    (hver : ∀ b ∈ ver, b < 256)
    (hcaps : ∀ c ∈ caps, (∀ b ∈ c.can, b < 256) ∧ ∀ b ∈ c.with_, b < 256)
    (hnon : ∀ b ∈ non, b < 256) (hfacts : ∀ f ∈ facts, ∀ b ∈ f, b < 256)
    (hsig : ∀ b ∈ sig, b < 256) :
    ∀ b ∈ encD (.mk iss aud ver caps exp nb non facts [] sig), b < 256 := by
  intro b hb
  simp only [encD, encProofSeq, List.length_nil, List.append_nil,
    List.append_assoc, List.mem_append] at hb
  rcases hb with h | h | h | h | h | h | h | h | h | h
  · exact encStr_lt _ hiss b h
  · exact encStr_lt _ haud b h
  · exact encStr_lt _ hver b h
  · exact encList_lt _ _ (fun c hc => encCap_lt c (hcaps c hc).1 (hcaps c hc).2) b h
  · exact encOptInt_lt exp b h
  · exact encInt_lt nb b h
  · exact encStr_lt _ hnon b h
  · exact encList_lt _ _ (fun f hf => encStr_lt f (hfacts f hf)) b h
  · exact varint_lt 0 b h
  · exact encStr_lt _ hsig b h

theorem decList_encList_cap (caps : List Capability) (rest : List Nat) :
    decList decCap (encList encCap caps ++ rest) = some (caps, rest) :=
  decList_encList decCap encCap caps rest (fun a _ r => decCap_encCap a r)

theorem decList_encList_str (l : List Str) (rest : List Nat) :
    decList decStr (encList encStr l ++ rest) = some (l, rest) :=
  decList_encList decStr encStr l rest (fun a _ r => decStr_encStr a r)

theorem decProofN_zero (fuel : Nat) (bs : List Nat) :
    decProofN fuel 0 bs = some ([], bs) := by
  cases fuel <;> simp [decProofN]

/-- Decoding inverts the archive encoding of a proof-free delegation, for any
positive fuel. -/
theorem decD_encD_nil (fuel : Nat) (iss aud ver : Str) (caps : List Capability)
    (exp : Option Int) (nb : Int) (non : Str) (facts : List Str) (sig : Str)
    (rest : List Nat) :
    decD (fuel + 1) (encD (.mk iss aud ver caps exp nb non facts [] sig) ++ rest) =
      some (.mk iss aud ver caps exp nb non facts [] sig, rest) := by
  simp only [encD, encProofSeq, List.length_nil, List.append_nil, List.append_assoc]
  rw [decD]
  simp [decStr_encStr, decList_encList_cap, decList_encList_str,
    decOptInt_encOptInt, decInt_encInt, readVarint_varint, decProofN_zero]

theorem isSpaceB_false_of_ge (b : Nat) (h : 43 ≤ b) : isSpaceB b = false := by
  simp only [isSpaceB, Bool.or_eq_false_iff, beq_eq_false_iff_ne, ne_eq,
    Bool.and_eq_false_iff, decide_eq_false_iff_not, not_le]
  omega

theorem dropWhile_eq_self_of_none (p : Nat → Bool) (l : List Nat)
    (h : ∀ b ∈ l, p b = false) : l.dropWhile p = l := by
  cases l with
  | nil => rfl
  | cons a r => simp [List.dropWhile_cons, h a (by simp)]

theorem trimSpace_eq_self (s : Str) (h : ∀ b ∈ s, isSpaceB b = false) :
    trimSpace s = s := by
  unfold trimSpace
  rw [dropWhile_eq_self_of_none _ s h,
    dropWhile_eq_self_of_none _ s.reverse (fun b hb => h b (List.mem_reverse.mp hb)),
    List.reverse_reverse]

theorem formatted_not_space (archive : List Nat) :
    ∀ b ∈ FormatDelegationBytes archive, isSpaceB b = false := by
  intro b hb
  unfold FormatDelegationBytes base64EncodeNoPad at hb
  rcases List.mem_cons.mp hb with rfl | hb
  · decide
  · rcases List.mem_map.mp hb with ⟨s, _, rfl⟩
    exact isSpaceB_false_of_ge _ (b64Char_ge s)

/-- Parsing the formatted archive of a proof-free, well-formed delegation
recovers the delegation (the identity-digest CID is fully reversible). -/
theorem delegationParse_format (iss aud ver : Str) (caps : List Capability)
    (exp : Option Int) (nb : Int) (non : Str) (facts : List Str) (sig : Str)
    (hiss : ∀ b ∈ iss, b < 256) (haud : ∀ b ∈ aud, b < 256)
    (hver : ∀ b ∈ ver, b < 256)
    (hcaps : ∀ c ∈ caps, (∀ b ∈ c.can, b < 256) ∧ ∀ b ∈ c.with_, b < 256)
    (hnon : ∀ b ∈ non, b < 256) (hfacts : ∀ f ∈ facts, ∀ b ∈ f, b < 256)
    (hsig : ∀ b ∈ sig, b < 256) :
    delegationParse
        (FormatDelegationBytes (Archive (.mk iss aud ver caps exp nb non facts [] sig))) =
      some (.mk iss aud ver caps exp nb non facts [] sig) := by
  have harch : ∀ b ∈ Archive (.mk iss aud ver caps exp nb non facts [] sig), b < 256 :=
    encD_nil_lt iss aud ver caps exp nb non facts sig hiss haud hver hcaps hnon hfacts hsig
  have hcid : ∀ b ∈ cidV1 carCodec
      (multihashSumIdentity (Archive (.mk iss aud ver caps exp nb non facts [] sig))), b < 256 := by
    intro b hb
    unfold cidV1 multihashSumIdentity at hb
    simp only [List.append_assoc, List.mem_append] at hb
    rcases hb with h | h | h | h | h
    · exact varint_lt 1 b h
    · exact varint_lt carCodec b h
    · exact varint_lt 0 b h
    · exact varint_lt _ b h
    · exact harch b h
  unfold FormatDelegationBytes delegationParse
  simp only [if_pos rfl]
  rw [base64_round_trip _ hcid]
  have hdec := decD_encD_nil
    (Archive (.mk iss aud ver caps exp nb non facts [] sig)).length
    iss aud ver caps exp nb non facts sig []
  rw [List.append_nil] at hdec
  unfold cidV1 multihashSumIdentity
  simp only [Archive] at hdec ⊢
  simp only [if_true, List.append_assoc, readVarint_varint]
  simp [hdec]

/-! ## Resolver lemmas -/

theorem parseInfo_mk (iss aud ver : Str) (caps : List Capability) (exp : Option Int)
    (nb : Int) (non : Str) (facts : List Str)
    (proofs : List (Nat × Option Delegation)) (sig : Str) :
    parseDelegationToDelegationInfo (.mk iss aud ver caps exp nb non facts proofs sig) =
      .mk iss aud ver exp nb non (proofs.map Prod.fst) (resolveProofList proofs) sig
        (caps.map (fun c => CapabilityInfo.mk c.with_ c.can)) facts := by
  rw [parseDelegationToDelegationInfo]

/-- The proof loop keeps exactly the available proofs, resolved recursively,
in their original order. -/
theorem resolveProofList_eq_filterMap (l : List (Nat × Option Delegation)) :
    resolveProofList l = l.filterMap (fun p => p.2.map parseDelegationToDelegationInfo) := by
  induction l with
  | nil => rfl
  | cons p rest ih =>
    rcases p with ⟨c, d?⟩
    cases d? with
    | none => rw [resolveProofList]; simp [ih]
    | some d => rw [resolveProofList]; simp [ih]

/-- A delegation chain: `chainDeleg n` carries `n` nested available proofs. -/
def chainDeleg : Nat → Delegation
  | 0 => .mk [1] [2] [3] [] none 0 [] [] [] [9]
  | n + 1 => .mk [1] [2] [3] [] none 0 [] [] [(n, some (chainDeleg n))] [9]

mutual
/-- Nesting depth of a resolved DelegationInfo tree (1 for a leaf). -/
def infoDepth : DelegationInfo → Nat
  | .mk _ _ _ _ _ _ _ pds _ _ _ => 1 + infoDepthList pds

/-- Maximum nesting depth over a list of children (0 for none). -/
def infoDepthList : List DelegationInfo → Nat
  | [] => 0
  | i :: rest => max (infoDepth i) (infoDepthList rest)
end

theorem infoDepth_resolve_chain (n : Nat) :
    infoDepth (parseDelegationToDelegationInfo (chainDeleg n)) = n + 1 := by
  induction n with
  | zero =>
    rw [chainDeleg, parseInfo_mk]
    rw [infoDepth]
    rfl
  | succ n ih =>
    rw [chainDeleg, parseInfo_mk]
    rw [infoDepth]
    have : resolveProofList [(n, some (chainDeleg n))] =
        [parseDelegationToDelegationInfo (chainDeleg n)] := by
      rw [resolveProofList, resolveProofList]
    rw [this, infoDepthList, infoDepthList, ih]
    omega

theorem ucanVersion_lt : ∀ b ∈ ucanVersion, b < 256 := by decide

/-- ParseDelegationContent recovers a proof-free, well-formed delegation from
its formatted archive: the formatted text has no surrounding whitespace and
the direct parse succeeds, so no base64 fallback is taken. -/
theorem ParseDelegationContent_format (iss aud ver : Str) (caps : List Capability)
    (exp : Option Int) (nb : Int) (non : Str) (facts : List Str) (sig : Str)
    (hiss : ∀ b ∈ iss, b < 256) (haud : ∀ b ∈ aud, b < 256)
    (hver : ∀ b ∈ ver, b < 256)
    (hcaps : ∀ c ∈ caps, (∀ b ∈ c.can, b < 256) ∧ ∀ b ∈ c.with_, b < 256)
    (hnon : ∀ b ∈ non, b < 256) (hfacts : ∀ f ∈ facts, ∀ b ∈ f, b < 256)
    (hsig : ∀ b ∈ sig, b < 256) :
    ParseDelegationContent
        (FormatDelegationBytes (Archive (.mk iss aud ver caps exp nb non facts [] sig))) =
      some (parseDelegationToDelegationInfo (.mk iss aud ver caps exp nb non facts [] sig)) := by
  simp only [ParseDelegationContent, trimSpace_eq_self _ (formatted_not_space _),
    delegationParse_format iss aud ver caps exp nb non facts sig hiss haud hver hcaps
      hnon hfacts hsig]

/-- Unfolding of the spec-modelled external Delegate constructor. -/
theorem Delegate_eq_mk (s : Signer) (aud : Str) (uc : List Capability)
    (opts : List DelegationOption) :
    Delegate s aud uc opts =
      .mk s.did aud ucanVersion uc (opts.foldl applyOption none) 0 [] [] []
        (s.sign (encStr s.did ++ encStr aud ++ encStr ucanVersion ++ encList encCap uc ++
          encOptInt (opts.foldl applyOption none) ++ encInt 0 ++ encStr [] ++
          encList encStr [] ++ varint 0)) := rfl

/-- The round-trip property of one delegation: parsing its formatted archive
yields a DelegationInfo agreeing with it on every claimed field. -/
def RoundTripHolds (d : Delegation) : Prop :=
  ∃ info, ParseDelegationContent (FormatDelegation (Archive d)) = some info ∧
    info.issuer = d.issuer ∧ info.audience = d.audience ∧
    info.capabilities = d.capabilities.map (fun c => CapabilityInfo.mk c.with_ c.can) ∧
    info.expiration = d.expiration ∧ info.notBefore = d.notBefore ∧
    info.nonce = d.nonce ∧ info.facts = d.facts ∧ info.signature = d.signature

/-! ## Claim theorems -/

/-- C1: For every delegation d produced by the builder (MakeDelegation),
formatting its archive and then parsing the resulting text string
(ParseDelegationContent applied to the FormatDelegation output) yields a
DelegationInfo whose issuer, audience, capabilities, expiration, notBefore,
nonce, facts, and signature are exactly equal to the corresponding fields
of d. (Stated for well-formed byte inputs: every byte value below 256.) -/
theorem C1_builder_format_parse_round_trip (s : Signer) (aud : Str)
    (caps : List Str) (opts : List DelegationOption) (d : Delegation)
    (hdid : ∀ b ∈ s.did, b < 256)
    (hsign : ∀ bs : List Nat, ∀ b ∈ s.sign bs, b < 256)
    (haud : ∀ b ∈ aud, b < 256)
    (hcaps : ∀ c ∈ caps, ∀ b ∈ c, b < 256)
    (hmk : MakeDelegation s aud caps opts = .ok d) :
    RoundTripHolds d := by
  have hd : d = Delegate s aud (caps.map (fun c => Capability.mk c s.did)) opts := by
    unfold MakeDelegation at hmk
    exact (Except.ok.inj hmk).symm
  subst hd
  rw [Delegate_eq_mk]
  have hcaps' : ∀ c ∈ caps.map (fun c => Capability.mk c s.did),
      (∀ b ∈ c.can, b < 256) ∧ ∀ b ∈ c.with_, b < 256 := by
    intro c hc
    rcases List.mem_map.mp hc with ⟨a, ha, rfl⟩
    exact ⟨hcaps a ha, hdid⟩
  unfold RoundTripHolds FormatDelegation
  refine ⟨_, ParseDelegationContent_format s.did aud ucanVersion _ _ 0 [] [] _
      hdid haud ucanVersion_lt hcaps' (by simp) (by simp) (hsign _), ?_⟩
  rw [parseInfo_mk]
  exact ⟨rfl, rfl, rfl, rfl, rfl, rfl, rfl, rfl⟩

/-- A concrete signer for witnesses: fixed DID bytes and a fixed-output
signing function. -/
def witSigner : Signer := { did := [100, 101], sign := fun _ => [5, 6, 7] }

/-- Witness for C1 at a concrete signer, audience and capability list. -/
theorem C1_builder_format_parse_round_trip_witness :
    MakeDelegation witSigner [102] [[103, 47, 104]] [] =
        Except.ok (Delegate witSigner [102] [Capability.mk [103, 47, 104] witSigner.did] []) ∧
      RoundTripHolds (Delegate witSigner [102] [Capability.mk [103, 47, 104] witSigner.did] []) :=
  ⟨rfl,
    C1_builder_format_parse_round_trip witSigner [102] [[103, 47, 104]] []
      (Delegate witSigner [102] [Capability.mk [103, 47, 104] witSigner.did] [])
      (by decide)
      (by intro bs b hb; simp [witSigner] at hb; omega)
      (by decide) (by decide) rfl⟩

/-- C2 counterexample: MakeDelegation with an empty capability-spec list does
not fail: it returns a delegation (with an empty capability list) rather than
an EmptyCapabilitySet error. -/
theorem C2_empty_capabilities_counterexample :
    MakeDelegation witSigner [7] [] [] = Except.ok (Delegate witSigner [7] [] []) ∧
      Except.map Delegation.capabilities (MakeDelegation witSigner [7] [] []) =
        Except.ok [] := ⟨rfl, rfl⟩

/-- C2 (amended): MakeDelegation performs no emptiness check on the
capability list; with an empty list it succeeds for every issuer, audience
and option list, producing a delegation whose capability list is empty — no
EmptyCapabilitySet error exists in the code. -/
theorem C2_no_empty_capability_check (s : Signer) (aud : Str)
    (opts : List DelegationOption) :
    MakeDelegation s aud [] opts = Except.ok (Delegate s aud [] opts) ∧
      (Delegate s aud [] opts).capabilities = [] := by
  exact ⟨rfl, rfl⟩

/-- C3 counterexample: with the current time equal to the provided (positive)
expiration, the gen command accepts the expiration instead of rejecting it —
the guard is `now > expiration`, so "not strictly after the current time" is
not rejected at equality. -/
theorem C3_expiration_equal_now_accepted :
    mkDelegationExpiration 100 100 = .ok [.withExpiration 100] := by decide

/-- C3 (amended): for a provided positive expiration, building fails with the
in-the-past error exactly when the expiration is strictly before the current
time; an expiration equal to the current time is accepted and one strictly in
the past (for example one second earlier) is rejected. -/
theorem C3_strictly_past_rejected (now expiration : Int) (h : 0 < expiration) :
    mkDelegationExpiration now expiration = .errInPast expiration ↔ expiration < now := by
  unfold mkDelegationExpiration
  rw [if_pos (by omega : expiration > 0)]
  by_cases hc : now > expiration
  · rw [if_pos hc]
    simp
    omega
  · rw [if_neg hc]
    simp
    omega

/-- Witness for C3 at a concrete past expiration. -/
theorem C3_strictly_past_rejected_witness :
    (0 : Int) < 3 ∧ (mkDelegationExpiration 5 3 = .errInPast 3 ↔ (3 : Int) < 5) :=
  ⟨by decide, C3_strictly_past_rejected 5 3 (by decide)⟩

/-- C4 counterexample: a chain of 100 nested proofs resolves fully — the
result is a 101-level DelegationInfo tree, not a ProofChainTooDeep error;
the resolver takes no maxDepth parameter at all. -/
theorem C4_chain100_resolves_fully :
    infoDepth (parseDelegationToDelegationInfo (chainDeleg 100)) = 101 :=
  infoDepth_resolve_chain 100

/-- C4 (amended): parseDelegationToDelegationInfo imposes no depth bound and
has no ProofChainTooDeep failure: it is a total function that resolves a
chain of n nested proofs to a DelegationInfo tree of depth n + 1 for every
n, in particular recursing far beyond 64 levels. -/
theorem C4_resolution_has_no_depth_bound (n : Nat) :
    infoDepth (parseDelegationToDelegationInfo (chainDeleg n)) = n + 1 :=
  infoDepth_resolve_chain n

theorem validate_aux (known : Str → Bool) (caps : List Str) (acc : List Str) :
    caps.foldl (fun errs capability =>
        if !known capability then errs ++ [capability] else errs) acc =
      acc ++ caps.filter (fun c => !known c) := by
  induction caps generalizing acc with
  | nil => simp
  | cons c rest ih =>
    rw [List.foldl_cons, ih]
    by_cases h : known c <;> simp [h, List.filter_cons]

/-- C5: For every list of ability strings and every known-ability set, the
capability validator returns exactly the abilities not present in the known
set (case-sensitive exact match), in one pass, never stopping at the first
unknown ability; with abilities blob/accept, x/y, z/w and known containing
only blob/accept it reports exactly x/y and z/w. -/
theorem C5_validator_completeness :
    (∀ (known : Str → Bool) (capabilities : List Str),
      validateCapability known capabilities =
        capabilities.filter (fun c => !known c)) ∧
    validateCapability (fun s => s == strBytes "blob/accept")
        [strBytes "blob/accept", strBytes "x/y", strBytes "z/w"] =
      [strBytes "x/y", strBytes "z/w"] := by
  constructor
  · intro known capabilities
    unfold validateCapability
    simpa using validate_aux known capabilities []
  · decide

/-- C6: A delegation containing a single link proof whose referenced block is
absent from the block store (or cannot be decoded) resolves successfully and
silently omits that proof: ProofDelegations is empty, for every choice of the
remaining fields and of the dangling link. -/
theorem C6_missing_proof_block_omitted (iss aud ver : Str) (caps : List Capability)
    (exp : Option Int) (nb : Int) (non : Str) (facts : List Str) (c : Nat)
    (sig : Str) :
    (parseDelegationToDelegationInfo
        (.mk iss aud ver caps exp nb non facts [(c, none)] sig)).proofDelegations = [] := by
  rw [parseInfo_mk]
  rw [resolveProofList, resolveProofList]
  rfl

/-- C7: ParseDelegationContent first trims surrounding whitespace, then
attempts the direct archive decode of the trimmed text; exactly when that
fails it performs one standard base64 decode followed by one retry of the
archive decode on the decoded bytes; when both fail it returns a decode
failure, with no further retries. -/
theorem C7_parse_single_base64_fallback (s : Str) :
    (∀ d, delegationParse (trimSpace s) = some d →
      ParseDelegationContent s = some (parseDelegationToDelegationInfo d)) ∧
    (delegationParse (trimSpace s) = none → base64DecodeStd (trimSpace s) = none →
      ParseDelegationContent s = none) ∧
    (∀ bs, delegationParse (trimSpace s) = none →
      base64DecodeStd (trimSpace s) = some bs →
      ParseDelegationContent s =
        Option.map parseDelegationToDelegationInfo (delegationParse bs)) := by
  refine ⟨?_, ?_, ?_⟩
  · intro d h
    simp only [ParseDelegationContent, h]
  · intro h1 h2
    simp only [ParseDelegationContent, h1, h2]
  · intro bs h1 h2
    simp only [ParseDelegationContent, h1, h2]
    cases hd : delegationParse bs <;> simp [hd]

/-- Witness for C7 on input bytes that fail both the direct parse and the
base64 fallback. -/
theorem C7_parse_single_base64_fallback_witness :
    delegationParse (trimSpace [33, 33, 33]) = none ∧
      base64DecodeStd (trimSpace [33, 33, 33]) = none ∧
      ParseDelegationContent [33, 33, 33] = none :=
  ⟨rfl, rfl, (C7_parse_single_base64_fallback [33, 33, 33]).2.1 rfl rfl⟩

/-- C8: Every capability built by MakeDelegation has the issuer's identifier
as its resource (the ability list carries no resource; the code always uses
`issuer.DID().String()`); the basic-grant scenario with two abilities and no
expiration yields exactly two capabilities, both with the issuer's DID as
resource, and an absent expiration. -/
theorem C8_resource_defaults_to_issuer :
    (∀ (s : Signer) (aud : Str) (caps : List Str) (opts : List DelegationOption),
      Except.map (fun d => d.capabilities.map Capability.with_)
          (MakeDelegation s aud caps opts) =
        Except.ok (caps.map (fun _ => s.did))) ∧
    (∀ (s : Signer) (aud : Str),
      Except.map
          (fun d => (d.capabilities.length, d.capabilities.map Capability.with_,
            d.expiration))
          (MakeDelegation s aud [strBytes "blob/allocate", strBytes "blob/accept"]
            [DelegationOption.withNoExpiration]) =
        Except.ok (2, [s.did, s.did], none)) := by
  constructor
  · intro s aud caps opts
    simp only [MakeDelegation, Delegate, Except.map, Delegation.capabilities,
      List.map_map]
    rfl
  · intro s aud
    simp [MakeDelegation, Delegate, Except.map, Delegation.capabilities,
      Delegation.expiration, applyOption]

/-- A proof-free delegation used in the chain scenario. -/
def leafD (iss : Str) : Delegation := .mk iss [2] [3] [] none 0 [] [] [] [9]

/-- A delegation with one available link proof, used in the chain scenario. -/
def linkD (iss : Str) (c : Nat) (child : Delegation) : Delegation :=
  .mk iss [2] [3] [] none 0 [] [] [(c, some child)] [9]

/-- C9: Resolution preserves proof order at every level: the resolved
children are exactly the available proofs, resolved recursively, in the order
of the proofs list; and in a 3-level chain A -> B -> C the nested
ProofDelegations reach C's flat info. -/
theorem C9_proof_order_preserved :
    (∀ d : Delegation, (parseDelegationToDelegationInfo d).proofDelegations =
      d.proofs.filterMap (fun p => p.2.map parseDelegationToDelegationInfo)) ∧
    (∀ (issA issB issC : Str) (cB cC : Nat),
      (parseDelegationToDelegationInfo
          (linkD issA cB (linkD issB cC (leafD issC)))).proofDelegations =
        [parseDelegationToDelegationInfo (linkD issB cC (leafD issC))] ∧
      (parseDelegationToDelegationInfo
          (linkD issB cC (leafD issC))).proofDelegations =
        [parseDelegationToDelegationInfo (leafD issC)] ∧
      (parseDelegationToDelegationInfo (leafD issC)).proofDelegations = []) := by
  constructor
  · intro d
    cases d with
    | mk iss aud ver caps exp nb non facts proofs sig =>
      rw [parseInfo_mk]
      rw [resolveProofList_eq_filterMap]
      rfl
  · intro issA issB issC cB cC
    refine ⟨?_, ?_, ?_⟩
    · rw [linkD, parseInfo_mk, resolveProofList, resolveProofList]
      rfl
    · rw [linkD, parseInfo_mk, resolveProofList, resolveProofList]
      rfl
    · rw [leafD, parseInfo_mk, resolveProofList]
      rfl

/-- C10: In the gen command, an expiration flag value of 0 or any negative
value is treated as unbounded validity (WithNoExpiration) rather than as a
past instant or an error, and the now-comparison guard applies only to
strictly positive expirations, so every expiration that is passed through is
strictly positive — "expires at time 0" is not representable. -/
theorem C10_nonpositive_expiration_unbounded (now expiration : Int) :
    (expiration ≤ 0 →
      mkDelegationExpiration now expiration = .ok [.withNoExpiration]) ∧
    (∀ e : Int, mkDelegationExpiration now expiration = .ok [.withExpiration e] →
      0 < e ∧ e = expiration) := by
  constructor
  · intro h
    unfold mkDelegationExpiration
    rw [if_neg (by omega)]
  · intro e he
    unfold mkDelegationExpiration at he
    by_cases hp : expiration > 0
    · rw [if_pos hp] at he
      by_cases hc : now > expiration
      · rw [if_pos hc] at he
        exact absurd he (by simp)
      · rw [if_neg hc] at he
        simp at he
        omega
    · rw [if_neg hp] at he
      simp at he

/-- Witness for C10 at a concrete negative flag and a concrete positive flag. -/
theorem C10_nonpositive_expiration_unbounded_witness :
    ((-3 : Int) ≤ 0 ∧ mkDelegationExpiration 5 (-3) = .ok [.withNoExpiration]) ∧
      (0 < (7 : Int) ∧ (7 : Int) = 7) :=
  ⟨⟨by decide, (C10_nonpositive_expiration_unbounded 5 (-3)).1 (by decide)⟩,
    (C10_nonpositive_expiration_unbounded 5 7).2 7 (by decide)⟩
